import Mathlib

/-!
Verification development for the `vibecite` CLI (src/vibecite/cli.py).

The Python source is shallowly embedded: pure functions become Lean
functions on `List Char` / `String`; the session state mutated through the
JSON state file becomes a `Session` value transformed by each command; the
external `claude` subprocess becomes an oracle `String → String` giving the
text `call_claude_code` returns for a prompt, and the settings / output
files become explicit values describing what is read and written.
-/

namespace Vibecite

/-! ## Python character and string primitives

`re`'s `\s` (for `str` patterns) and `str.strip`'s notion of whitespace are
the same set of Unicode code points; `pyWhitespaceCodes` lists it in full:
TAB LF VT FF CR, the separators 0x1C-0x1F, 0x85, SPACE, NBSP, OGHAM SPACE,
the 0x2000-0x200A range, LINE/PARAGRAPH SEPARATOR, NNBSP, MMSP, IDEOGRAPHIC
SPACE. -/
def pyWhitespaceCodes : List Nat :=
  [9, 10, 11, 12, 13, 28, 29, 30, 31, 32, 0x85, 0xA0, 0x1680,
   0x2000, 0x2001, 0x2002, 0x2003, 0x2004, 0x2005, 0x2006, 0x2007,
   0x2008, 0x2009, 0x200A, 0x2028, 0x2029, 0x202F, 0x205F, 0x3000]

def pyIsSpace (c : Char) : Bool :=
  pyWhitespaceCodes.contains c.toNat

/-- Python `str.strip()` on a character list: drop whitespace at both ends. -/
def stripChars (l : List Char) : List Char :=
  ((l.dropWhile pyIsSpace).reverse.dropWhile pyIsSpace).reverse

/-- Python `sep.join(parts)`. -/
def pyJoin (sep : String) : List String → String
  | [] => ""
  | [x] => x
  | x :: y :: xs => x ++ sep ++ pyJoin sep (y :: xs)

/-! ## The extraction regular expression

`extract_bibtex_from_response` uses the single pattern

  three backticks, `(?:bibtex)?`, `\s*`, a newline, a lazy dotall group,
  a newline, three backticks

with `re.DOTALL | re.IGNORECASE`, via `re.findall` (non-overlapping
left-to-right matches, each returning the captured group).  The engine is
specialized to this one pattern below, with the backtracking order of the
Python engine made explicit: the optional tag is tried first, `\s*` is
greedy (longest first), and the captured group is lazy (shortest first). -/

def fence : List Char := ['`', '`', '`']

/-- The closing delimiter `\n` + three backticks. -/
def closingFence : List Char := '\n' :: fence

def bibtexTag : List Char := ['b', 'i', 'b', 't', 'e', 'x']

/-- `re.IGNORECASE` match of one lowercase pattern letter `p` of "bibtex"
against a subject character `c`: the ASCII case pair, plus (as in CPython's
engine, which folds by Unicode simple lowercase and the extra equivalence
i ~ dotless ı) U+0130 and U+0131 for the letter `i`. -/
def reCharEqCI (p c : Char) : Bool :=
  p = c ∨ p.toUpper = c ∨ (p = 'i' ∧ (c = 'ı' ∨ c = 'İ'))

def listBeginsWith : List Char → List Char → Bool
  | [], _ => true
  | _ :: _, [] => false
  | p :: ps, c :: cs => p = c && listBeginsWith ps cs

def listBeginsWithCI : List Char → List Char → Bool
  | [], _ => true
  | _ :: _, [] => false
  | p :: ps, c :: cs => reCharEqCI p c && listBeginsWithCI ps cs

/-- Lazy search: split `s` at the first occurrence of `n`, returning the
part before it and the part after it (`(.*?)` followed by `n`). -/
def splitFirst (n : List Char) : List Char → Option (List Char × List Char)
  | [] => if listBeginsWith n [] then some ([], []) else none
  | c :: cs =>
    if listBeginsWith n (c :: cs) then some ([], (c :: cs).drop n.length)
    else
      match splitFirst n cs with
      | some (p, q) => some (c :: p, q)
      | none => none

/-- Does `n` occur as a contiguous run anywhere in the second list? -/
def containsSeq (n : List Char) : List Char → Bool
  | [] => listBeginsWith n []
  | c :: cs => listBeginsWith n (c :: cs) || containsSeq n cs

/-- `\s*\n(.*?)\n```` ``` with the engine's backtracking: `\s*` is greedy, so
longer whitespace runs are tried before shorter ones; when the mandatory
`\n` is placed, the lazy group runs up to the first `\n` + three backticks.
Returns the captured group and the remainder after the whole match. -/
def matchAfterWs : List Char → Option (List Char × List Char)
  | [] => none
  | c :: cs =>
    if pyIsSpace c then
      match matchAfterWs cs with
      | some r => some r
      | none => if c = '\n' then splitFirst closingFence cs else none
    else none

/-- Try the whole pattern at the start of `s`: opening fence, optional
case-insensitive "bibtex" tag (tried first, as the engine does), then
`\s*\n(.*?)\n` and the closing fence.  Returns the captured group and the
remainder of the text after the match. -/
def matchAt (s : List Char) : Option (List Char × List Char) :=
  if listBeginsWith fence s then
    let afterFence := s.drop 3
    let withTag :=
      if listBeginsWithCI bibtexTag afterFence then matchAfterWs (afterFence.drop 6)
      else none
    match withTag with
    | some r => some r
    | none => matchAfterWs afterFence
  else none

/-! Basic lemmas about the matching primitives. -/

def findAllFuel : Nat → List Char → List (List Char)
  | 0, _ => []
  | _ + 1, [] => []
  | f + 1, c :: cs =>
    match matchAt (c :: cs) with
    | some (b, r) => b :: findAllFuel f r
    | none => findAllFuel f cs

def findAll (cs : List Char) : List (List Char) :=
  findAllFuel cs.length cs

def extractLoop : List (List Char) → List (List Char)
  | [] => []
  | m :: ms =>
    let cleaned := stripChars m
    if cleaned ≠ [] ∧ '@' ∈ cleaned then cleaned :: extractLoop ms
    else extractLoop ms

/-- `extract_bibtex_from_response` from cli.py: find all fenced blocks
(optional case-insensitive "bibtex" tag), strip each, keep the non-empty
ones containing `@`, in order of appearance. -/
def extract_bibtex_from_response (response : String) : List String :=
  (extractLoop (findAll response.data)).map String.mk

/-! ## The session data model

`.vc_state.json` holds `{"vibes": [...], "current_bib": ...}`; each vibe is
`{"description": ..., "results": ...}` with `raw_results` added by a
successful search.  A missing state file loads as the empty session. -/

structure Vibe where
  description : String
  results : Option String
  raw_results : Option String
deriving DecidableEq, Repr

structure Session where
  vibes : List Vibe
  current_bib : Option String
deriving DecidableEq, Repr

/-- `load_state` when no state file exists. -/
def emptySession : Session := { vibes := [], current_bib := none }

/-- Python truthiness of an optional string (`None` and `""` are falsy).
The source tests `if vibe["results"]:` with exactly this meaning. -/
def truthyStr : Option String → Bool
  | none => false
  | some s => s ≠ ""

/-! ## External search invoker -/

/-- The possible outcomes of the `subprocess.run(["claude", "--"], ...,
check=True)` call: normal completion with an exit status, the executable
missing (`FileNotFoundError`), or any other exception raised by the
invocation (e.g. `PermissionError` when the file exists but is not
executable) — the source catches only the first two failure kinds. -/
inductive SubprocessOutcome where
  | completed (returncode : Int) (stdout stderr : String)
  | fileNotFoundError
  | otherError (msg : String)
deriving DecidableEq, Repr

/-- `call_claude_code`, as a function of the subprocess outcome.  `.ok` is a
normal return; `.error` is an exception propagating out of the function
(no matching `except` clause).  With `check=True` a nonzero exit status
raises `CalledProcessError`, which is caught and turned into `""`;
`FileNotFoundError` likewise; anything else propagates. -/
def call_claude_code : SubprocessOutcome → Except String String
  | .completed rc out _ => if rc = 0 then .ok out else .ok ""
  | .fileNotFoundError => .ok ""
  | .otherError msg => .error msg

/-- Whether `call_claude_code` itself prints an error diagnostic to the
console (the `console.print("[red]...")` calls in its `except` clauses). -/
def call_claude_code_prints_diagnostic : SubprocessOutcome → Bool
  | .completed rc _ _ => rc ≠ 0
  | .fileNotFoundError => true
  | .otherError _ => false

/-! ## Commands -/

/-- The f-string prompt `search` builds for one vibe. -/
def search_prompt_for (description : String) : String :=
  "Please search for academic papers matching this description: \"" ++ description ++
  "\"\n\nPlease find ONLY ONE most relevant paper and return it in BibTeX format. IMPORTANT: When choosing between multiple versions of the same paper, prioritize the conference/journal publication over the arXiv version. Include DOI when available. Format your response with the BibTeX entry inside ```bibtex ``` code blocks."

/-- One iteration of the `search` loop on one vibe.  The external call is
abstracted as `oracle : String → String`, giving the string
`call_claude_code` returns for a prompt (its caught failure cases return
`""`).  A vibe with truthy `results` is skipped; an empty response leaves
the vibe unchanged; otherwise the raw response is stored and `results` is
set to the joined extracted entries, or to the raw response when no entry
is extracted. -/
def searchVibe (oracle : String → String) (v : Vibe) : Vibe :=
  if truthyStr v.results then v
  else
    let results := oracle (search_prompt_for v.description)
    if results = "" then v
    else
      let entries := extract_bibtex_from_response results
      { description := v.description
        results := some (if entries = [] then results else pyJoin "\n\n" entries)
        raw_results := some results }

/-- The `search` command: early return when there are no vibes, otherwise
process each vibe in order. -/
def searchSession (oracle : String → String) (s : Session) : Session :=
  if s.vibes = [] then s
  else { vibes := s.vibes.map (searchVibe oracle), current_bib := s.current_bib }

/-- The `add` command: `" ".join(args)` becomes a new vibe with `results`
set to `None` (no `raw_results` key). Early return when no args are given. -/
def addVibe (args : List String) (s : Session) : Session :=
  if args = [] then s
  else
    { vibes := s.vibes ++ [{ description := String.intercalate " " args
                             results := none, raw_results := none }]
      current_bib := s.current_bib }

/-- The `init` command: record the bibliography path (default `refs.bib`).
The file-touch side effect and path absolutization are not part of the
session model. -/
def initSession (bib : Option String) (s : Session) : Session :=
  { vibes := s.vibes, current_bib := some (bib.getD "refs.bib") }

/-- The `clear` command deletes the state file; the next load is empty. -/
def clearSession (_ : Session) : Session := emptySession

/-- Python `a or b` on an optional/defaulted string: `b` when `a` is
`None` or empty. -/
def firstTruthy : Option String → String → String
  | none, b => b
  | some s, b => if s = "" then b else s

/-- `output_file = bib or state.get("current_bib") or "refs.bib"`. -/
def exportTarget (bib : Option String) (cur : Option String) : String :=
  firstTruthy bib (firstTruthy cur "refs.bib")

/-- What the `export` command does to the file system: either it overwrites
`file` with `content`, or it only prints the no-results warning and
returns without touching any file. -/
inductive ExportOutcome where
  | wrote (file : String) (content : String)
  | noResults
deriving DecidableEq, Repr

/-- The `export` command: collect every vibe's truthy `results` in order,
report `noResults` if none, else join with blank lines and overwrite the
target file.  The session itself is never modified (no `save_state`). -/
def exportSession (bib : Option String) (s : Session) : ExportOutcome :=
  let all_results := s.vibes.filterMap fun v =>
    match v.results with
    | some r => if r = "" then none else some r
    | none => none
  if all_results = [] then .noResults
  else .wrote (exportTarget bib s.current_bib) (pyJoin "\n\n" all_results)

/-- One CLI invocation, as a session-state transition.  `ls` and `exportCmd`
never change the session (`ls` only prints; `export` only writes the
bibliography file); `search` carries the oracle describing what the
external assistant returns during that run. -/
inductive Cmd where
  | init (bib : Option String)
  | add (args : List String)
  | search (oracle : String → String)
  | exportCmd (bib : Option String)
  | ls
  | clear

def runCmd : Cmd → Session → Session
  | .init bib, s => initSession bib s
  | .add args, s => addVibe args s
  | .search oracle, s => searchSession oracle s
  | .exportCmd _, s => s
  | .ls, s => s
  | .clear, s => clearSession s

/-- A sequence of CLI invocations starting from a given session. -/
def runCmds (cmds : List Cmd) (s : Session) : Session :=
  cmds.foldl (fun t c => runCmd c t) s

/-! ## Search-tool enabler

The settings file is modeled by its `permissions.allow` list (`none` when
the file does not exist).  The second component of the result is the write
event: `some l` when the file is (re)written with allow list `l`, `none`
when nothing is written. -/

def check_web_search_settings (file : Option (List String)) :
    Bool × Option (List String) :=
  match file with
  | none => (true, some ["WebSearch", "WebFetch"])
  | some allowed =>
    let has_websearch := "WebSearch" ∈ allowed
    let has_webfetch := "WebFetch" ∈ allowed
    if ¬has_websearch ∨ ¬has_webfetch then
      let a1 := if ¬has_websearch then allowed ++ ["WebSearch"] else allowed
      let a2 := if ¬has_webfetch then a1 ++ ["WebFetch"] else a1
      (true, some a2)
    else (true, none)

/-- `enable_web_search_with_consent` just calls the check and reports its
Boolean result (success message on `true`, failure message on `false`). -/
def enable_web_search_with_consent (file : Option (List String)) :
    Bool × Option (List String) :=
  check_web_search_settings file


/-! ## Lemmas about the matching primitives -/

theorem listBeginsWith_iff (n : List Char) :
    ∀ s : List Char, listBeginsWith n s = true ↔ ∃ t, s = n ++ t := by
  induction n with
  | nil =>
    intro s
    simp [listBeginsWith]
  | cons p ps ih =>
    intro s
    cases s with
    | nil =>
      simp [listBeginsWith]
    | cons c cs =>
      simp only [listBeginsWith, Bool.and_eq_true, decide_eq_true_eq, ih cs]
      constructor
      · rintro ⟨rfl, t, rfl⟩
        exact ⟨t, rfl⟩
      · rintro ⟨t, ht⟩
        simp only [List.cons_append, List.cons.injEq] at ht
        exact ⟨ht.1.symm, t, ht.2⟩

theorem listBeginsWith_append (n t : List Char) :
    listBeginsWith n (n ++ t) = true :=
  (listBeginsWith_iff n (n ++ t)).2 ⟨t, rfl⟩

theorem splitFirst_eq {n : List Char} :
    ∀ {s p q : List Char}, splitFirst n s = some (p, q) → s = p ++ n ++ q := by
  intro s
  induction s with
  | nil =>
    intro p q h
    simp only [splitFirst] at h
    by_cases hb : listBeginsWith n [] = true
    · rw [if_pos hb] at h
      obtain ⟨t, ht⟩ := (listBeginsWith_iff n []).1 hb
      rcases List.append_eq_nil.1 ht.symm with ⟨rfl, rfl⟩
      simp only [Option.some.injEq, Prod.mk.injEq] at h
      simp [← h.1, ← h.2]
    · rw [if_neg hb] at h
      exact absurd h (by simp)
  | cons c cs ih =>
    intro p q h
    simp only [splitFirst] at h
    by_cases hb : listBeginsWith n (c :: cs) = true
    · rw [if_pos hb] at h
      obtain ⟨t, ht⟩ := (listBeginsWith_iff n (c :: cs)).1 hb
      simp only [Option.some.injEq, Prod.mk.injEq] at h
      rw [ht, ← h.1, ← h.2, ht]
      simp [List.drop_left]
    · rw [if_neg hb] at h
      cases hs : splitFirst n cs with
      | none => rw [hs] at h; exact absurd h (by simp)
      | some pq =>
        obtain ⟨p', q'⟩ := pq
        rw [hs] at h
        simp only [Option.some.injEq, Prod.mk.injEq] at h
        rw [← h.1, ← h.2]
        simp [ih hs]

theorem matchAfterWs_decomp :
    ∀ {s b r : List Char}, matchAfterWs s = some (b, r) →
      ∃ w, (∀ c ∈ w, pyIsSpace c = true) ∧ s = w ++ '\n' :: (b ++ closingFence ++ r) := by
  intro s
  induction s with
  | nil => intro b r h; exact absurd h (by simp [matchAfterWs])
  | cons c cs ih =>
    intro b r h
    simp only [matchAfterWs] at h
    by_cases hc : pyIsSpace c = true
    · rw [if_pos hc] at h
      cases hrec : matchAfterWs cs with
      | some pq =>
        obtain ⟨p', q'⟩ := pq
        rw [hrec] at h
        simp only [Option.some.injEq, Prod.mk.injEq] at h
        obtain ⟨rfl, rfl⟩ := h
        obtain ⟨w, hw, hs⟩ := ih hrec
        exact ⟨c :: w, by simpa [hc] using hw, by simp [hs]⟩
      | none =>
        rw [hrec] at h
        by_cases hn : c = '\n'
        · rw [if_pos hn] at h
          have := splitFirst_eq h
          exact ⟨[], by simp, by simp [hn, this]⟩
        · rw [if_neg hn] at h
          exact absurd h (by simp)
    · rw [if_neg hc] at h
      exact absurd h (by simp)

theorem listBeginsWithCI_length {n : List Char} :
    ∀ {s : List Char}, listBeginsWithCI n s = true → n.length ≤ s.length := by
  induction n with
  | nil => intro s _; simp
  | cons p ps ih =>
    intro s h
    cases s with
    | nil => exact absurd h (by simp [listBeginsWithCI])
    | cons c cs =>
      simp only [listBeginsWithCI, Bool.and_eq_true] at h
      simpa using ih h.2

theorem listBeginsWithCI_take {n : List Char} :
    ∀ {s : List Char}, listBeginsWithCI n s = true →
      listBeginsWithCI n (s.take n.length) = true := by
  induction n with
  | nil => intro s _; simp [listBeginsWithCI]
  | cons p ps ih =>
    intro s h
    cases s with
    | nil => exact absurd h (by simp [listBeginsWithCI])
    | cons c cs =>
      simp only [listBeginsWithCI, Bool.and_eq_true] at h
      simpa [List.take, listBeginsWithCI, h.1] using ih h.2

/-- Every successful match has the exact shape: opening fence, optional
case-insensitive "bibtex" tag, a run of whitespace, a newline, the captured
body, a newline, closing fence, remainder. -/
theorem matchAt_decomp {s b r : List Char} (h : matchAt s = some (b, r)) :
    ∃ t w, (t = [] ∨ (t.length = 6 ∧ listBeginsWithCI bibtexTag t = true)) ∧
      (∀ c ∈ w, pyIsSpace c = true) ∧
      s = fence ++ t ++ w ++ '\n' :: (b ++ closingFence ++ r) := by
  simp only [matchAt] at h
  by_cases hf : listBeginsWith fence s = true
  · rw [if_pos hf] at h
    obtain ⟨u, hu⟩ := (listBeginsWith_iff fence s).1 hf
    have hdrop : s.drop 3 = u := by
      rw [hu]
      exact List.drop_left fence u
    rw [hdrop] at h
    by_cases ht : listBeginsWithCI bibtexTag u = true
    · rw [if_pos ht] at h
      cases hm : matchAfterWs (u.drop 6) with
      | some pq =>
        obtain ⟨p', q'⟩ := pq
        rw [hm] at h
        simp only [Option.some.injEq, Prod.mk.injEq] at h
        obtain ⟨rfl, rfl⟩ := h
        obtain ⟨w, hw, hu6⟩ := matchAfterWs_decomp hm
        refine ⟨u.take 6, w, Or.inr ⟨?_, ?_⟩, hw, ?_⟩
        · have h6 := listBeginsWithCI_length ht
          simp only [bibtexTag, List.length_cons, List.length_nil] at h6
          simp only [List.length_take]
          omega
        · exact listBeginsWithCI_take ht
        · rw [hu]
          conv_lhs => rw [← List.take_append_drop 6 u, hu6]
          simp
      | none =>
        rw [hm] at h
        cases hm2 : matchAfterWs u with
        | some pq =>
          obtain ⟨p', q'⟩ := pq
          rw [hm2] at h
          simp only [Option.some.injEq, Prod.mk.injEq] at h
          obtain ⟨rfl, rfl⟩ := h
          obtain ⟨w, hw, hueq⟩ := matchAfterWs_decomp hm2
          exact ⟨[], w, Or.inl rfl, hw, by rw [hu, hueq]; simp⟩
        | none => rw [hm2] at h; exact absurd h (by simp)
    · rw [if_neg ht] at h
      cases hm2 : matchAfterWs u with
      | some pq =>
        obtain ⟨p', q'⟩ := pq
        rw [hm2] at h
        simp only [Option.some.injEq, Prod.mk.injEq] at h
        obtain ⟨rfl, rfl⟩ := h
        obtain ⟨w, hw, hueq⟩ := matchAfterWs_decomp hm2
        exact ⟨[], w, Or.inl rfl, hw, by rw [hu, hueq]; simp⟩
      | none => rw [hm2] at h; exact absurd h (by simp)
  · rw [if_neg hf] at h
    exact absurd h (by simp)

theorem matchAt_length {s b r : List Char} (h : matchAt s = some (b, r)) :
    r.length < s.length := by
  obtain ⟨t, w, _, _, hs⟩ := matchAt_decomp h
  rw [hs]
  simp [fence, closingFence]
  omega

theorem matchAt_none_of_head {c : Char} {cs : List Char} (hc : c ≠ '`') :
    matchAt (c :: cs) = none := by
  have : listBeginsWith fence (c :: cs) = false := by
    simp [fence, listBeginsWith]
    intro h
    exact absurd h.symm hc
  simp [matchAt, this]

/-! ## `re.findall`, fuel-indexed

The scanner advances one character on failure and to the end of the match
on success; `findAllFuel` makes this structurally recursive on a fuel
argument, and `findAll` supplies adequate fuel (the text length).  The
recurrence the scanner satisfies is proved as `findAll_nil`/`findAll_cons`
below, so all reasoning is against the intended recursion. -/

theorem findAllFuel_adequate :
    ∀ n, ∀ cs : List Char, cs.length ≤ n → findAllFuel n cs = findAllFuel cs.length cs := by
  intro n
  induction n using Nat.strong_induction_on with
  | _ n ih =>
    intro cs hlen
    match n, cs with
    | 0, cs =>
      have : cs = [] := List.length_eq_zero.1 (Nat.le_zero.1 hlen)
      simp [this]
    | n + 1, [] => simp [findAllFuel]
    | n + 1, c :: cs =>
      simp only [findAllFuel, List.length_cons]
      cases hm : matchAt (c :: cs) with
      | some pq =>
        obtain ⟨b, r⟩ := pq
        have hr : r.length < (c :: cs).length := matchAt_length hm
        simp only [List.length_cons] at hr hlen
        have h1 : findAllFuel n r = findAllFuel r.length r :=
          ih n (Nat.lt_succ_self n) r (by omega)
        have h2 : findAllFuel cs.length r = findAllFuel r.length r :=
          ih cs.length (by omega) r (by omega)
        simp [h1, h2]
      | none =>
        have h1 : findAllFuel n cs = findAllFuel cs.length cs :=
          ih n (Nat.lt_succ_self n) cs (by simpa using Nat.le_of_succ_le_succ hlen)
        simp [h1]

/-- All matches of the fenced-block pattern, in order of appearance
(`re.findall`, returning the captured group of each match). -/
theorem findAll_nil : findAll [] = [] := rfl

theorem findAll_cons (c : Char) (cs : List Char) :
    findAll (c :: cs) =
      match matchAt (c :: cs) with
      | some (b, r) => b :: findAll r
      | none => findAll cs := by
  show findAllFuel (cs.length + 1) (c :: cs) = _
  simp only [findAllFuel]
  cases hm : matchAt (c :: cs) with
  | some pq =>
    obtain ⟨b, r⟩ := pq
    have hr : r.length < (c :: cs).length := matchAt_length hm
    simp only [List.length_cons] at hr
    simp [findAll, findAllFuel_adequate cs.length r (by omega)]
  | none => simp [findAll]

/-! ## `extract_bibtex_from_response` -/

/-- The accumulation loop of `extract_bibtex_from_response`: strip each
match, keep it when it is non-empty and contains an `@`. -/

theorem containsSeq_append_false {n : List Char} (s1 : List Char) {s2 : List Char}
    (h : containsSeq n (s1 ++ s2) = false) : containsSeq n s2 = false := by
  induction s1 with
  | nil => simpa using h
  | cons c cs ih =>
    simp only [List.cons_append, containsSeq, Bool.or_eq_false_iff] at h
    exact ih h.2

theorem fence_not_begins {u v : List Char} (hu : containsSeq fence u = false) :
    ¬ listBeginsWith fence (u ++ (closingFence ++ v)) = true := by
  intro h
  obtain ⟨t, ht⟩ := (listBeginsWith_iff fence _).1 h
  match u with
  | [] =>
    rw [show ([] : List Char) ++ (closingFence ++ v) = '\n' :: (fence ++ v) from rfl] at ht
    rw [show fence ++ t = '`' :: ('`' :: '`' :: t) from rfl] at ht
    simp at ht
  | [a] =>
    rw [show [a] ++ (closingFence ++ v) = a :: '\n' :: (fence ++ v) from rfl] at ht
    rw [show fence ++ t = '`' :: '`' :: ('`' :: t) from rfl] at ht
    simp at ht
  | [a, a'] =>
    rw [show [a, a'] ++ (closingFence ++ v) = a :: a' :: '\n' :: (fence ++ v) from rfl] at ht
    rw [show fence ++ t = '`' :: '`' :: '`' :: t from rfl] at ht
    simp at ht
  | a :: a' :: a'' :: rest =>
    rw [show (a :: a' :: a'' :: rest) ++ (closingFence ++ v) =
        a :: a' :: a'' :: (rest ++ (closingFence ++ v)) from rfl] at ht
    rw [show fence ++ t = '`' :: '`' :: '`' :: t from rfl] at ht
    simp only [List.cons.injEq] at ht
    have hb : listBeginsWith fence (a :: a' :: a'' :: rest) = true := by
      simp [fence, listBeginsWith, ht.1, ht.2.1, ht.2.2.1]
    simp [containsSeq, hb] at hu

theorem closer_first (v : List Char) :
    ∀ u : List Char, containsSeq fence u = false →
      splitFirst closingFence (u ++ (closingFence ++ v)) = some (u, v) := by
  intro u
  induction u with
  | nil =>
    intro _
    show splitFirst closingFence ('\n' :: (fence ++ v)) = some ([], v)
    have hb : listBeginsWith closingFence ('\n' :: (fence ++ v)) = true :=
      listBeginsWith_append closingFence v
    simp only [splitFirst, if_pos hb]
    simp [closingFence, fence]
  | cons a u' ih =>
    intro hu
    have hu' : containsSeq fence u' = false := by
      simp only [containsSeq, Bool.or_eq_false_iff] at hu
      exact hu.2
    have hnb : ¬ listBeginsWith closingFence (a :: (u' ++ (closingFence ++ v))) = true := by
      intro h
      rw [show (closingFence : List Char) = '\n' :: fence from rfl] at h
      simp only [listBeginsWith, Bool.and_eq_true, decide_eq_true_eq] at h
      exact fence_not_begins hu' h.2
    rw [show (a :: u') ++ (closingFence ++ v) = a :: (u' ++ (closingFence ++ v)) from rfl]
    simp only [splitFirst, if_neg hnb, ih hu']

theorem matchAfterWs_none_of_tail {tail : List Char}
    (htail : ∀ c t, tail = c :: t → pyIsSpace c = false) :
    ∀ {x : List Char}, (∀ c ∈ x, pyIsSpace c = true ∧ c ≠ '\n') →
      matchAfterWs (x ++ tail) = none := by
  intro x
  induction x with
  | nil =>
    intro _
    cases htl : tail with
    | nil => rfl
    | cons c t => simp [matchAfterWs, htail c t htl]
  | cons c x' ih =>
    intro hx
    have hc := hx c (by simp)
    have hrec := ih (fun c hc' => hx c (by simp [hc']))
    simp [matchAfterWs, hc.1, hrec, hc.2]

theorem matchAfterWs_found {p q tail : List Char}
    (htail : ∀ c t, tail = c :: t → pyIsSpace c = false)
    {x : List Char} (hx : ∀ c ∈ x, pyIsSpace c = true ∧ c ≠ '\n')
    (hsp : splitFirst closingFence (x ++ tail) = some (p, q)) :
    ∀ u : List Char, (∀ c ∈ u, pyIsSpace c = true) →
      matchAfterWs (u ++ '\n' :: (x ++ tail)) = some (p, q) := by
  intro u
  induction u with
  | nil =>
    intro _
    have hnone := matchAfterWs_none_of_tail htail hx
    simp [matchAfterWs, hnone, hsp, show pyIsSpace '\n' = true from by decide]
  | cons c u' ih =>
    intro hu
    have hc := hu c (by simp)
    have hrec := ih (fun c hc' => hu c (by simp [hc']))
    simp [matchAfterWs, hc, hrec]

theorem lastNewlineSplit (l : List Char) :
    '\n' ∉ l ∨ ∃ u x, l = u ++ '\n' :: x ∧ '\n' ∉ x := by
  induction l with
  | nil => exact Or.inl (by simp)
  | cons c cs ih =>
    cases ih with
    | inl h =>
      by_cases hc : c = '\n'
      · exact Or.inr ⟨[], cs, by simp [hc], h⟩
      · refine Or.inl ?_
        simp only [List.mem_cons]
        rintro (hh | hh)
        · exact hc hh.symm
        · exact h hh
    | inr h =>
      obtain ⟨u, x, rfl, hx⟩ := h
      exact Or.inr ⟨c :: u, x, by simp, hx⟩

theorem dropWhile_append_of_forall {p : Char → Bool} :
    ∀ {w l : List Char}, (∀ c ∈ w, p c = true) →
      List.dropWhile p (w ++ l) = List.dropWhile p l := by
  intro w
  induction w with
  | nil => intro l _; rfl
  | cons c w' ih =>
    intro l hw
    have hc : p c = true := hw c (by simp)
    rw [List.cons_append, List.dropWhile_cons_of_pos hc]
    exact ih (fun c hc' => hw c (by simp [hc']))

theorem dropWhile_head_false {p : Char → Bool} :
    ∀ {l r : List Char} {c : Char}, List.dropWhile p l = c :: r → p c = false := by
  intro l
  induction l with
  | nil => intro r c h; simp [List.dropWhile] at h
  | cons a l' ih =>
    intro r c h
    by_cases ha : p a = true
    · rw [List.dropWhile_cons_of_pos ha] at h
      exact ih h
    · rw [List.dropWhile_cons_of_neg ha] at h
      injection h with h1 h2
      rw [← h1]
      simpa using ha

theorem reCharEqCI_refl (c : Char) : reCharEqCI c c = true := by
  simp [reCharEqCI]

theorem listBeginsWithCI_append (t r : List Char) :
    listBeginsWithCI t (t ++ r) = true := by
  induction t with
  | nil => rfl
  | cons c t' ih => simp [listBeginsWithCI, reCharEqCI_refl, ih]

/-- A run of the scanner at a well-formed tagged block: with `@` in the
stripped body (so the body is not pure whitespace) and no triple backtick
inside the body, the pattern matches at the opening fence, consumes exactly
through the closing fence, and captures a body with the same stripped
content as `b`. -/
theorem matchAt_opener {b tail0 : List Char} (hb : containsSeq fence b = false)
    (hat : '@' ∈ stripChars b) :
    ∃ body, matchAt (fence ++ (bibtexTag ++ '\n' :: (b ++ (closingFence ++ tail0)))) =
        some (body, tail0) ∧ stripChars body = stripChars b := by
  have hwd : List.takeWhile pyIsSpace b ++ List.dropWhile pyIsSpace b = b :=
    List.takeWhile_append_dropWhile pyIsSpace b
  have hdne : List.dropWhile pyIsSpace b ≠ [] := by
    intro hnil
    rw [stripChars, hnil] at hat
    simp at hat
  obtain ⟨d0, d', hd⟩ := List.exists_cons_of_ne_nil hdne
  have hd0 : pyIsSpace d0 = false := dropWhile_head_false hd
  have htail : ∀ c t, (List.dropWhile pyIsSpace b ++ (closingFence ++ tail0)) = c :: t →
      pyIsSpace c = false := by
    intro c t h
    rw [hd, List.cons_append] at h
    injection h with h1 h2
    rw [← h1]
    exact hd0
  have hwmem : ∀ c ∈ List.takeWhile pyIsSpace b, pyIsSpace c = true :=
    fun c hc => List.mem_takeWhile_imp hc
  have hmain : ∃ body, matchAfterWs ('\n' :: (b ++ (closingFence ++ tail0))) =
      some (body, tail0) ∧ stripChars body = stripChars b := by
    cases lastNewlineSplit (List.takeWhile pyIsSpace b) with
    | inl hnl =>
      refine ⟨b, ?_, rfl⟩
      have hx : ∀ c ∈ List.takeWhile pyIsSpace b, pyIsSpace c = true ∧ c ≠ '\n' :=
        fun c hc => ⟨hwmem c hc, fun hh => hnl (hh ▸ hc)⟩
      have harr : List.takeWhile pyIsSpace b ++
          (List.dropWhile pyIsSpace b ++ (closingFence ++ tail0)) =
          b ++ (closingFence ++ tail0) := by
        rw [← List.append_assoc, hwd]
      have hsp : splitFirst closingFence (List.takeWhile pyIsSpace b ++
          (List.dropWhile pyIsSpace b ++ (closingFence ++ tail0))) = some (b, tail0) := by
        rw [harr]
        exact closer_first tail0 b hb
      have hfound := matchAfterWs_found htail hx hsp [] (by simp)
      rw [List.nil_append, harr] at hfound
      exact hfound
    | inr hsplit =>
      obtain ⟨u0, x0, hw, hx0⟩ := hsplit
      have hbeq : b = u0 ++ '\n' :: (x0 ++ List.dropWhile pyIsSpace b) := by
        conv_lhs => rw [← hwd, hw]
        simp
      have hxd : containsSeq fence (x0 ++ List.dropWhile pyIsSpace b) = false := by
        rw [hbeq] at hb
        have h1 := containsSeq_append_false u0 hb
        exact containsSeq_append_false ['\n'] h1
      have hx0mem : ∀ c ∈ x0, pyIsSpace c = true ∧ c ≠ '\n' := by
        intro c hc
        refine ⟨hwmem c ?_, fun hh => hx0 (hh ▸ hc)⟩
        rw [hw]
        simp [hc]
      have hu0mem : ∀ c ∈ ('\n' :: u0), pyIsSpace c = true := by
        intro c hc
        rcases List.mem_cons.1 hc with rfl | hc'
        · decide
        · exact hwmem c (by rw [hw]; simp [hc'])
      have hsp : splitFirst closingFence (x0 ++
          (List.dropWhile pyIsSpace b ++ (closingFence ++ tail0))) =
          some (x0 ++ List.dropWhile pyIsSpace b, tail0) := by
        have h2 := closer_first tail0 (x0 ++ List.dropWhile pyIsSpace b) hxd
        rw [List.append_assoc] at h2
        exact h2
      refine ⟨x0 ++ List.dropWhile pyIsSpace b, ?_, ?_⟩
      · have hfound := matchAfterWs_found htail hx0mem hsp ('\n' :: u0) hu0mem
        have harr : ('\n' :: u0) ++ '\n' ::
            (x0 ++ (List.dropWhile pyIsSpace b ++ (closingFence ++ tail0))) =
            '\n' :: (b ++ (closingFence ++ tail0)) := by
          conv_rhs => rw [hbeq]
          simp
        rwa [harr] at hfound
      · have h1 : List.dropWhile pyIsSpace (x0 ++ List.dropWhile pyIsSpace b) =
            List.dropWhile pyIsSpace b := by
          rw [dropWhile_append_of_forall (fun c hc => (hx0mem c hc).1), hd,
            List.dropWhile_cons_of_neg (by simp [hd0])]
        rw [stripChars, stripChars, h1]
  obtain ⟨body, hrun, hstrip⟩ := hmain
  refine ⟨body, ?_, hstrip⟩
  have hshape : matchAt (fence ++ (bibtexTag ++ '\n' :: (b ++ (closingFence ++ tail0)))) =
      match matchAfterWs ('\n' :: (b ++ (closingFence ++ tail0))) with
      | some r => some r
      | none => matchAfterWs (bibtexTag ++ '\n' :: (b ++ (closingFence ++ tail0))) := rfl
  rw [hshape, hrun]

theorem matchAt_nil : matchAt [] = none := rfl

theorem findAll_cons_of_match {s b r : List Char} (h : matchAt s = some (b, r)) :
    findAll s = b :: findAll r := by
  cases s with
  | nil => rw [matchAt_nil] at h; exact Option.noConfusion h
  | cons c cs => rw [findAll_cons, h]

theorem findAll_append_of_no_backtick {s : List Char} :
    ∀ {a : List Char}, (∀ ch ∈ a, ch ≠ '`') → findAll (a ++ s) = findAll s := by
  intro a
  induction a with
  | nil => intro _; rfl
  | cons c a' ih =>
    intro ha
    rw [List.cons_append, findAll_cons, matchAt_none_of_head (ha c (by simp))]
    exact ih (fun ch hc => ha ch (by simp [hc]))

theorem extractLoop_cons_pos {m : List Char} (ms : List (List Char))
    (h : stripChars m ≠ [] ∧ '@' ∈ stripChars m) :
    extractLoop (m :: ms) = stripChars m :: extractLoop ms := by
  simp only [extractLoop, if_pos h]

theorem extractLoop_cons_neg {m : List Char} (ms : List (List Char))
    (h : ¬(stripChars m ≠ [] ∧ '@' ∈ stripChars m)) :
    extractLoop (m :: ms) = extractLoop ms := by
  simp only [extractLoop, if_neg h]

theorem extractLoop_eq : ∀ ms : List (List Char),
    extractLoop ms = (ms.map stripChars).filter (fun m => decide (m ≠ [] ∧ '@' ∈ m)) := by
  intro ms
  induction ms with
  | nil => rfl
  | cons m ms ih =>
    by_cases h : stripChars m ≠ [] ∧ '@' ∈ stripChars m
    · rw [extractLoop_cons_pos ms h, ih]
      simp [List.filter_cons, h]
    · rw [extractLoop_cons_neg ms h, ih]
      simp [List.filter_cons, h]

theorem extractLoop_mem : ∀ {ms : List (List Char)} {m : List Char},
    m ∈ extractLoop ms → m ≠ [] ∧ '@' ∈ m := by
  intro ms
  induction ms with
  | nil => intro m h; exact absurd h (by simp [extractLoop])
  | cons x ms ih =>
    intro m h
    by_cases hx : stripChars x ≠ [] ∧ '@' ∈ stripChars x
    · rw [extractLoop_cons_pos ms hx] at h
      rcases List.mem_cons.1 h with rfl | h'
      · exact hx
      · exact ih h'
    · rw [extractLoop_cons_neg ms hx] at h
      exact ih h

theorem drop_length_append {α : Type} {p s : List α} :
    ∀ i : Nat, (p ++ s).drop (p.length + i) = s.drop i := by
  induction p with
  | nil => intro i; simp
  | cons c p' ih =>
    intro i
    rw [List.cons_append, List.length_cons, Nat.succ_add, List.drop_succ_cons, ih i]

/-- Every entry produced by the scanner arises from a match of the exact
shape: opening fence, optional tag, whitespace run, newline, body, newline,
closing fence, at some position of the text. -/
theorem findAll_mem_shape_aux : ∀ (n : Nat) (r : List Char), r.length ≤ n →
    ∀ e ∈ findAll r, ∃ i t w rest,
      r.drop i = fence ++ t ++ w ++ '\n' :: (e ++ closingFence ++ rest) ∧
      (t = [] ∨ (t.length = 6 ∧ listBeginsWithCI bibtexTag t = true)) ∧
      ∀ ch ∈ w, pyIsSpace ch = true := by
  intro n
  induction n with
  | zero =>
    intro r hr e he
    have : r = [] := List.length_eq_zero.1 (Nat.le_zero.1 hr)
    rw [this] at he
    exact absurd he (by simp [findAll_nil])
  | succ n ihn =>
    intro r hr e he
    cases r with
    | nil => exact absurd he (by simp [findAll_nil])
    | cons c cs =>
      rw [findAll_cons] at he
      cases hm : matchAt (c :: cs) with
      | none =>
        rw [hm] at he
        simp only [List.length_cons] at hr
        obtain ⟨i, t, w, rest, h1, h2, h3⟩ :=
          ihn cs (Nat.le_of_succ_le_succ hr) e he
        exact ⟨i + 1, t, w, rest, by rwa [List.drop_succ_cons], h2, h3⟩
      | some pq =>
        obtain ⟨b, rest0⟩ := pq
        rw [hm] at he
        rcases List.mem_cons.1 he with rfl | he'
        · obtain ⟨t, w, h2, h3, hdec⟩ := matchAt_decomp hm
          exact ⟨0, t, w, rest0, by simpa using hdec, h2, h3⟩
        · have hlen : rest0.length ≤ n := by
            have := matchAt_length hm
            simp only [List.length_cons] at this hr
            omega
          obtain ⟨i, t, w, rest, h1, h2, h3⟩ := ihn rest0 hlen e he'
          obtain ⟨t0, w0, _, _, hdec⟩ := matchAt_decomp hm
          have hsplit : c :: cs =
              (fence ++ t0 ++ w0 ++ '\n' :: (b ++ closingFence)) ++ rest0 := by
            rw [hdec]
            simp
          refine ⟨(fence ++ t0 ++ w0 ++ '\n' :: (b ++ closingFence)).length + i,
            t, w, rest, ?_, h2, h3⟩
          rw [hsplit, drop_length_append, h1]

theorem findAll_mem_shape {r e : List Char} (he : e ∈ findAll r) :
    ∃ i t w rest,
      r.drop i = fence ++ t ++ w ++ '\n' :: (e ++ closingFence ++ rest) ∧
      (t = [] ∨ (t.length = 6 ∧ listBeginsWithCI bibtexTag t = true)) ∧
      ∀ ch ∈ w, pyIsSpace ch = true :=
  findAll_mem_shape_aux r.length r (Nat.le_refl _) e he


/-! ## Claims about extraction -/

/-- C1: `extract_bibtex_from_response` returns, in the order the fenced
blocks appear in the text, exactly the trimmed contents of fenced code
blocks (optional "bibtex" tag, case-insensitive, across multiple lines)
whose trimmed content is non-empty and contains `@`.  In particular, for a
text containing a fenced block tagged `bibtex` whose trimmed body contains
`@` (formal reading of "containing a fenced block": no backtick before the
block and no triple backtick inside its body, so the block is a fenced
block of this text), that trimmed body is returned as one entry; blocks
without `@` and whitespace-only blocks are excluded by the filter. -/
theorem claim_C1 :
    (∀ r : String, extract_bibtex_from_response r =
        (((findAll r.data).map stripChars).filter
          (fun m => decide (m ≠ [] ∧ '@' ∈ m))).map String.mk) ∧
    (∀ a b c : List Char, (∀ ch ∈ a, ch ≠ '`') → containsSeq fence b = false →
      '@' ∈ stripChars b →
      String.mk (stripChars b) ∈ extract_bibtex_from_response
        (String.mk (a ++ (fence ++ (bibtexTag ++ '\n' :: (b ++ (closingFence ++ c))))))) := by
  constructor
  · intro r
    show (extractLoop (findAll r.data)).map String.mk = _
    rw [extractLoop_eq]
  · intro a b c ha hb hat
    obtain ⟨body, hm, hstrip⟩ := matchAt_opener hb hat
    have hfa : findAll (a ++ (fence ++ (bibtexTag ++ '\n' :: (b ++ (closingFence ++ c))))) =
        body :: findAll c := by
      rw [findAll_append_of_no_backtick ha, findAll_cons_of_match hm]
    have hcond : stripChars body ≠ [] ∧ '@' ∈ stripChars body := by
      rw [hstrip]
      refine ⟨fun hnil => ?_, hat⟩
      rw [hnil] at hat
      exact absurd hat (by simp)
    show String.mk (stripChars b) ∈ (extractLoop (findAll
      (a ++ (fence ++ (bibtexTag ++ '\n' :: (b ++ (closingFence ++ c))))))).map String.mk
    rw [hfa, extractLoop_cons_pos (findAll c) hcond, hstrip]
    exact List.mem_map_of_mem _ (List.mem_cons_self _ _)

theorem claim_C1_witness :
    String.mk (stripChars "@a".data) ∈ extract_bibtex_from_response
      (String.mk ("x\n".data ++ (fence ++ (bibtexTag ++ '\n' ::
        ("@a".data ++ (closingFence ++ "\nmore".data)))))) :=
  claim_C1.2 "x\n".data "@a".data "\nmore".data (by decide) (by decide) (by decide)

/-- C2: the spec's worked example: the text
`"abc\n```bibtex\n@article{x, title={T}}\n```\ndef"` extracts to exactly
one entry, `"@article{x, title={T}}"`. -/
theorem claim_C2 :
    extract_bibtex_from_response "abc\n```bibtex\n@article\x7bx, title=\x7bT\x7d\x7d\n```\ndef" =
      ["@article\x7bx, title=\x7bT\x7d\x7d"] := by decide

/-- C10: the pattern only matches blocks of the exact shape opening fence,
optional "bibtex" tag, optional whitespace, a newline, a body, a newline,
closing fence (first conjunct: every scanner entry arises from such a
shape at some position); consequently a one-line block whose opening fence
carries the content (` ```bibtex @x``` `) and a block with no body line
between the fences (` ```\n``` `) yield no entries. -/
theorem claim_C10 :
    (∀ (r : List Char), ∀ e ∈ findAll r, ∃ i t w rest,
      r.drop i = fence ++ t ++ w ++ '\n' :: (e ++ closingFence ++ rest) ∧
      (t = [] ∨ (t.length = 6 ∧ listBeginsWithCI bibtexTag t = true)) ∧
      ∀ ch ∈ w, pyIsSpace ch = true) ∧
    extract_bibtex_from_response "```bibtex @x```" = [] ∧
    extract_bibtex_from_response "```\n```" = [] := by
  refine ⟨?_, by decide, by decide⟩
  intro r e he
  exact findAll_mem_shape he

theorem claim_C10_witness : ∃ i t w rest,
    ("```bibtex\n@a\n```".data).drop i =
      fence ++ t ++ w ++ '\n' :: ("@a".data ++ closingFence ++ rest) ∧
    (t = [] ∨ (t.length = 6 ∧ listBeginsWithCI bibtexTag t = true)) ∧
    ∀ ch ∈ w, pyIsSpace ch = true :=
  claim_C10.1 "```bibtex\n@a\n```".data "@a".data (by decide)


example : extract_bibtex_from_response "abc\n```bibtex\n@article\x7bx\x7d\n```\ndef" =
    ["@article\x7bx\x7d"] := by decide

example : extract_bibtex_from_response "```\nno at sign\n```" = [] := by decide

example : extract_bibtex_from_response "```BibTeX\n@a\n```x\n```\n @b \n```" =
    ["@a", "@b"] := by decide

/-! ## Lemmas about the session model -/

theorem string_eq_empty_of_data {s : String} (h : s.data = []) : s = "" := by
  cases s with
  | mk d =>
    have hd : d = [] := h
    rw [hd]

theorem extract_mem_ne_empty {r e : String}
    (he : e ∈ extract_bibtex_from_response r) : e ≠ "" := by
  obtain ⟨m, hm, rfl⟩ := List.mem_map.1 he
  have h := extractLoop_mem hm
  intro hmk
  apply h.1
  have : (String.mk m).data = ("" : String).data := by rw [hmk]
  simpa using this

theorem pyJoin_ne_empty {sep x : String} {xs : List String} (hx : x ≠ "") :
    pyJoin sep (x :: xs) ≠ "" := by
  cases xs with
  | nil => simpa [pyJoin] using hx
  | cons y ys =>
    simp only [pyJoin]
    intro h
    apply hx
    apply string_eq_empty_of_data
    have hdata : (x ++ sep ++ pyJoin sep (y :: ys)).data = [] := by rw [h]
    rw [String.data_append, String.data_append] at hdata
    exact List.append_eq_nil.1 (List.append_eq_nil.1 hdata).1 |>.1

theorem searchVibe_skip {o : String → String} {v : Vibe}
    (h : truthyStr v.results = true) : searchVibe o v = v := by
  simp [searchVibe, h]

theorem searchVibe_fail {o : String → String} {v : Vibe}
    (h1 : ¬ truthyStr v.results = true)
    (h2 : o (search_prompt_for v.description) = "") : searchVibe o v = v := by
  simp [searchVibe, h1, h2]

theorem searchVibe_set {o : String → String} {v : Vibe}
    (h1 : ¬ truthyStr v.results = true)
    (h2 : ¬ o (search_prompt_for v.description) = "") :
    searchVibe o v =
      { description := v.description
        results := some (if extract_bibtex_from_response (o (search_prompt_for v.description)) = []
          then o (search_prompt_for v.description)
          else pyJoin "\n\n" (extract_bibtex_from_response (o (search_prompt_for v.description))))
        raw_results := some (o (search_prompt_for v.description)) } := by
  simp [searchVibe, h1, h2]

theorem searchVibe_wf (o : String → String) (v : Vibe) (hv : v.results ≠ some "") :
    (searchVibe o v).results ≠ some "" := by
  by_cases ht : truthyStr v.results = true
  · rw [searchVibe_skip ht]; exact hv
  · by_cases hr : o (search_prompt_for v.description) = ""
    · rw [searchVibe_fail ht hr]; exact hv
    · rw [searchVibe_set ht hr]
      simp only [Option.some.injEq, ne_eq]
      intro hcontra
      by_cases hext : extract_bibtex_from_response (o (search_prompt_for v.description)) = []
      · rw [if_pos hext] at hcontra
        exact hr hcontra
      · rw [if_neg hext] at hcontra
        obtain ⟨e, es, hees⟩ := List.exists_cons_of_ne_nil hext
        rw [hees] at hcontra
        have he : e ≠ "" := extract_mem_ne_empty (r := o (search_prompt_for v.description))
          (by rw [hees]; exact List.mem_cons_self e es)
        exact pyJoin_ne_empty he hcontra

theorem searchSession_vibes (o : String → String) (s : Session) :
    (searchSession o s).vibes = s.vibes.map (searchVibe o) := by
  by_cases h : s.vibes = []
  · simp [searchSession, h]
  · simp [searchSession, h]

theorem runCmd_wf {s : Session} (c : Cmd) (hs : ∀ v ∈ s.vibes, v.results ≠ some "") :
    ∀ v ∈ (runCmd c s).vibes, v.results ≠ some "" := by
  cases c with
  | init bib => simpa [runCmd, initSession] using hs
  | add args =>
    intro v hv
    simp only [runCmd, addVibe] at hv
    by_cases h : args = []
    · rw [if_pos h] at hv
      exact hs v hv
    · rw [if_neg h] at hv
      simp only at hv
      rcases List.mem_append.1 hv with h' | h'
      · exact hs v h'
      · rw [List.mem_singleton.1 h']
        simp
  | search o =>
    intro v hv
    simp only [runCmd] at hv
    rw [searchSession_vibes] at hv
    obtain ⟨u, hu, rfl⟩ := List.mem_map.1 hv
    exact searchVibe_wf o u (hs u hu)
  | exportCmd bib => exact hs
  | ls => exact hs
  | clear =>
    intro v hv
    simp [runCmd, clearSession, emptySession] at hv

theorem runCmds_wf (cmds : List Cmd) :
    ∀ s : Session, (∀ v ∈ s.vibes, v.results ≠ some "") →
      ∀ v ∈ (runCmds cmds s).vibes, v.results ≠ some "" := by
  induction cmds with
  | nil => intro s hs; exact hs
  | cons c cmds ih =>
    intro s hs
    exact ih (runCmd c s) (runCmd_wf c hs)

theorem truthyStr_of_isSome {r : Option String} (h1 : r.isSome = true)
    (h2 : r ≠ some "") : truthyStr r = true := by
  cases r with
  | none => simp at h1
  | some t =>
    simp only [truthyStr, decide_eq_true_eq]
    intro ht
    exact h2 (by rw [ht])

theorem filterMap_truthy_eq {vs : List Vibe} (h : ∀ v ∈ vs, v.results ≠ some "") :
    (vs.filterMap fun v => match v.results with
      | some r => if r = "" then none else some r
      | none => none) = vs.filterMap Vibe.results := by
  induction vs with
  | nil => rfl
  | cons v vs ih =>
    rw [List.filterMap_cons, List.filterMap_cons]
    have hrest := ih (fun u hu => h u (by simp [hu]))
    cases hres : v.results with
    | none => simpa [hres] using hrest
    | some r =>
      have hr : ¬ r = "" := fun hh => (h v (by simp)) (by rw [hres, hh])
      simp [hres, hr, hrest]

/-! ## The claims about commands -/

/-- C3: for every reachable session state (obtained by running a command
sequence from the empty session) in which at least one vibe has `results`
set, `export` overwrites the target file with exactly the blank-line-joined
concatenation of every vibe's `results`, skipping vibes with none, in
vibe-insertion order.  In the model the written content is recorded in the
outcome, so reading the file back yields exactly that concatenation. -/
theorem claim_C3 (cmds : List Cmd) (bib : Option String)
    (hsome : ∃ v ∈ (runCmds cmds emptySession).vibes, v.results.isSome = true) :
    exportSession bib (runCmds cmds emptySession) =
      .wrote (exportTarget bib (runCmds cmds emptySession).current_bib)
        (pyJoin "\n\n" ((runCmds cmds emptySession).vibes.filterMap Vibe.results)) := by
  have hwf := runCmds_wf cmds emptySession (by simp [emptySession])
  have heq := filterMap_truthy_eq hwf
  have hne : (runCmds cmds emptySession).vibes.filterMap Vibe.results ≠ [] := by
    obtain ⟨v, hv, hsome⟩ := hsome
    intro hnil
    have := (List.filterMap_eq_nil_iff.1 hnil) v hv
    rw [this] at hsome
    simp at hsome
  simp only [exportSession]
  rw [heq, if_neg hne]

theorem claim_C3_witness :
    exportSession none (runCmds [Cmd.add ["x"],
        Cmd.search (fun _ => "```bibtex\n@a\n```")] emptySession) =
      .wrote (exportTarget none (runCmds [Cmd.add ["x"],
        Cmd.search (fun _ => "```bibtex\n@a\n```")] emptySession).current_bib)
        (pyJoin "\n\n" ((runCmds [Cmd.add ["x"],
          Cmd.search (fun _ => "```bibtex\n@a\n```")] emptySession).vibes.filterMap
            Vibe.results)) :=
  claim_C3 [Cmd.add ["x"], Cmd.search (fun _ => "```bibtex\n@a\n```")] none (by decide)

/-- C4: search is idempotent per vibe on reachable states: a vibe whose
`results` is set is left unchanged by `searchVibe` under any oracle (it is
not re-queried), and after one `search` run, a second run under any oracle
leaves every vibe with set `results` (hence its `results` and `raw_results`)
unchanged. -/
theorem claim_C4 (cmds : List Cmd) (o o' : String → String) :
    (∀ v ∈ (runCmds cmds emptySession).vibes, v.results.isSome = true →
      ∀ o2 : String → String, searchVibe o2 v = v) ∧
    (∀ v ∈ (searchSession o (runCmds cmds emptySession)).vibes, v.results.isSome = true →
      searchVibe o' v = v) := by
  have hwf := runCmds_wf cmds emptySession (by simp [emptySession])
  constructor
  · intro v hv hsome o2
    exact searchVibe_skip (truthyStr_of_isSome hsome (hwf v hv))
  · intro v hv hsome
    rw [searchSession_vibes] at hv
    obtain ⟨u, hu, rfl⟩ := List.mem_map.1 hv
    exact searchVibe_skip (truthyStr_of_isSome hsome (searchVibe_wf o u (hwf u hu)))

theorem claim_C4_witness :
    searchVibe (fun _ => "zzz")
      { description := "x", results := some "@a",
        raw_results := some "```bibtex\n@a\n```" } =
      { description := "x", results := some "@a",
        raw_results := some "```bibtex\n@a\n```" } :=
  (claim_C4 [Cmd.add ["x"], Cmd.search (fun _ => "```bibtex\n@a\n```")]
      (fun _ => "") (fun _ => "zzz")).1
    { description := "x", results := some "@a",
      raw_results := some "```bibtex\n@a\n```" }
    (by decide) (by decide) (fun _ => "zzz")

/-- C5: `search` maps `searchVibe` over all vibes (each vibe is processed),
and for a vibe lacking `results` whose external call returns a non-failure
(non-empty) response `r`: the raw response is stored in `raw_results`, and
`results` becomes the blank-line-joined extracted entries when extraction
finds at least one, else the raw response verbatim. -/
theorem claim_C5 (o : String → String) :
    (∀ s : Session, s.vibes ≠ [] → (searchSession o s).vibes = s.vibes.map (searchVibe o)) ∧
    (∀ v : Vibe, v.results = none → o (search_prompt_for v.description) ≠ "" →
      (searchVibe o v).raw_results = some (o (search_prompt_for v.description)) ∧
      (extract_bibtex_from_response (o (search_prompt_for v.description)) = [] →
        (searchVibe o v).results = some (o (search_prompt_for v.description))) ∧
      (∀ e es, extract_bibtex_from_response (o (search_prompt_for v.description)) = e :: es →
        (searchVibe o v).results = some (pyJoin "\n\n" (e :: es)))) := by
  constructor
  · intro s _
    exact searchSession_vibes o s
  · intro v hnone hr
    have h1 : ¬ truthyStr v.results = true := by simp [truthyStr, hnone]
    rw [searchVibe_set h1 hr]
    refine ⟨rfl, fun hext => ?_, fun e es hees => ?_⟩
    · simp [hext]
    · simp [hees]

theorem claim_C5_witness :
    (searchVibe (fun _ => "```bibtex\n@a\n```")
        { description := "d", results := none, raw_results := none }).raw_results =
      some "```bibtex\n@a\n```" :=
  ((claim_C5 (fun _ => "```bibtex\n@a\n```")).2
    { description := "d", results := none, raw_results := none } rfl (by decide)).1

/-- C6: in a session state where no vibe has `results` set (e.g. vibes
added but no search performed), `export` reports the no-results warning,
returns normally, does not create or modify the output file (outcome
`noResults`, no write event), and leaves the session state unchanged
(`export` never saves state). -/
theorem claim_C6 (bib : Option String) (s : Session)
    (h : ∀ v ∈ s.vibes, v.results = none) :
    exportSession bib s = .noResults ∧ runCmd (.exportCmd bib) s = s := by
  refine ⟨?_, rfl⟩
  have hnil : (s.vibes.filterMap fun v => match v.results with
      | some r => if r = "" then none else some r
      | none => none) = [] := by
    rw [List.filterMap_eq_nil_iff]
    intro v hv
    rw [h v hv]
  simp [exportSession, hnil]

theorem claim_C6_witness :
    exportSession none
      { vibes := [{ description := "graph neural networks", results := none,
                    raw_results := none },
                  { description := "attention mechanisms", results := none,
                    raw_results := none }],
        current_bib := none } = .noResults ∧
    runCmd (.exportCmd none)
      { vibes := [{ description := "graph neural networks", results := none,
                    raw_results := none },
                  { description := "attention mechanisms", results := none,
                    raw_results := none }],
        current_bib := none } =
      { vibes := [{ description := "graph neural networks", results := none,
                    raw_results := none },
                  { description := "attention mechanisms", results := none,
                    raw_results := none }],
        current_bib := none } :=
  claim_C6 none _ (by decide)

/-- C7 counterexample: the claim says `call_claude_code` returns the empty
string on "any other invocation failure"; but an exception that is neither
`CalledProcessError` nor `FileNotFoundError` (e.g. a `PermissionError`
when the file exists but is not executable) matches no `except` clause and
propagates instead of yielding `""`. -/
theorem claim_C7_counterexample :
    call_claude_code (.otherError "PermissionError") ≠ Except.ok "" := by
  simp [call_claude_code]

/-- C7 (amended): `call_claude_code` returns the subprocess stdout on
success; on a nonzero exit status or a missing executable it returns the
empty string and prints a diagnostic; any other invocation failure
propagates out of the function instead of being converted to `""`. -/
theorem claim_C7 :
    (∀ out err, call_claude_code (.completed 0 out err) = .ok out) ∧
    (∀ rc out err, rc ≠ 0 → call_claude_code (.completed rc out err) = .ok "" ∧
      call_claude_code_prints_diagnostic (.completed rc out err) = true) ∧
    (call_claude_code .fileNotFoundError = .ok "" ∧
      call_claude_code_prints_diagnostic .fileNotFoundError = true) ∧
    (∀ msg, call_claude_code (.otherError msg) = .error msg ∧
      call_claude_code_prints_diagnostic (.otherError msg) = false) := by
  refine ⟨fun out err => rfl, ?_, ⟨rfl, rfl⟩, fun msg => ⟨rfl, rfl⟩⟩
  intro rc out err hrc
  constructor
  · simp [call_claude_code, hrc]
  · simp [call_claude_code_prints_diagnostic, hrc]

theorem claim_C7_witness :
    call_claude_code (.completed 1 "out" "err") = .ok "" ∧
      call_claude_code_prints_diagnostic (.completed 1 "out" "err") = true :=
  claim_C7.2.1 1 "out" "err" (by decide)

/-- C8: the search-tool enabling step is idempotent: when the permissions
file already lists both `WebSearch` and `WebFetch` in its allow list,
re-running performs no write (the file is left unchanged) and still
reports success. -/
theorem claim_C8 (allowed : List String)
    (h1 : "WebSearch" ∈ allowed) (h2 : "WebFetch" ∈ allowed) :
    check_web_search_settings (some allowed) = (true, none) ∧
    enable_web_search_with_consent (some allowed) = (true, none) := by
  have hchk : check_web_search_settings (some allowed) = (true, none) := by
    simp [check_web_search_settings, h1, h2]
  exact ⟨hchk, hchk⟩

theorem claim_C8_witness :
    check_web_search_settings (some ["WebSearch", "WebFetch"]) = (true, none) ∧
    enable_web_search_with_consent (some ["WebSearch", "WebFetch"]) = (true, none) :=
  claim_C8 ["WebSearch", "WebFetch"] (by decide) (by decide)

/-- C9: starting from the empty session, after any sequence of commands
every stored vibe's `results` is either unset or a non-empty string:
`search` assigns `results` only from a non-empty subprocess output (and a
blank-line join of extracted entries, each non-empty, is non-empty).  This
invariant makes "skipped if `results` is set" and the code's truthiness
test "skipped if `results` is truthy" coincide on reachable states. -/
theorem claim_C9 (cmds : List Cmd) :
    ∀ v ∈ (runCmds cmds emptySession).vibes,
      v.results = none ∨ ∃ t, v.results = some t ∧ t ≠ "" := by
  intro v hv
  have h := runCmds_wf cmds emptySession (by simp [emptySession]) v hv
  cases hres : v.results with
  | none => exact Or.inl rfl
  | some t =>
    refine Or.inr ⟨t, rfl, fun ht => ?_⟩
    exact h (by rw [hres, ht])

theorem claim_C9_witness :
    ({ description := "graph neural networks", results := none,
       raw_results := none } : Vibe).results = none ∨
      ∃ t, ({ description := "graph neural networks", results := none,
              raw_results := none } : Vibe).results = some t ∧ t ≠ "" :=
  claim_C9 [Cmd.add ["graph", "neural", "networks"]]
    { description := "graph neural networks", results := none, raw_results := none }
    (by decide)


end Vibecite
